import Mathlib

set_option maxHeartbeats 1600000

/-!
Shallow embedding of the core of the adambcomer database-engine repository
(src/mem_table.rs, src/wal.rs, src/wal_iterator.rs, src/database.rs,
src/utils.rs), together with proofs about the claims of its specification.

Byte strings (`Vec<u8>` / `&[u8]`) are `List Nat`, `u128` timestamps are
`Nat`, and `usize` size arithmetic is modelled with explicit wrapping
modulo `2 ^ 64` (release-mode Rust semantics).  I/O fallibility is
modelled by boolean oracles, and panics (`unwrap`) by `Option`.
-/

/-- Byte strings: lists of byte values. -/
abbrev Bytes := List Nat

/-- The `usize` modulus. -/
def U64 : Nat := 2 ^ 64

/-- Wrapping `usize` addition (release-mode Rust). -/
def wadd (a b : Nat) : Nat := (a + b) % U64

/-- Wrapping `usize` subtraction (release-mode Rust). -/
def wsub (a b : Nat) : Nat := (a + (U64 - b % U64)) % U64

/-- Lexicographic byte comparison: the `Ord` instance Rust uses for
`&[u8]` inside `binary_search_by_key` and for path sorting. -/
def cmpBytes : Bytes → Bytes → Ordering
  | [], [] => Ordering.eq
  | [], _ :: _ => Ordering.lt
  | _ :: _, [] => Ordering.gt
  | a :: as, b :: bs =>
    if a < b then Ordering.lt
    else if b < a then Ordering.gt
    else cmpBytes as bs

/-- Strict lexicographic order on byte strings. -/
def bytesLt (a b : Bytes) : Prop := cmpBytes a b = Ordering.lt

instance (a b : Bytes) : Decidable (bytesLt a b) := by
  unfold bytesLt; infer_instance

/-- Little-endian encoding of `n` into `w` bytes (`to_le_bytes`),
truncating modulo `256 ^ w` exactly like the fixed-width Rust integers. -/
def leBytes (n : Nat) : Nat → List Nat
  | 0 => []
  | w + 1 => n % 256 :: leBytes (n / 256) w

/-- Little-endian decoding of a byte buffer (`from_le_bytes`). -/
def fromLe (bs : List Nat) : Nat := bs.foldr (fun b acc => b + 256 * acc) 0

/-- A decoded WAL record (`WALEntry` in src/wal_iterator.rs). -/
structure WALEntry where
  key : Bytes
  value : Option Bytes
  timestamp : Nat
  deleted : Bool
  deriving DecidableEq

/-- The error type of the WAL iterator.  Its declaration is not under
src/ (src/wal_iterator.rs only imports `crate::wal::WALError`); modelled
from the spec's corrupt-record condition as a single constructor. -/
inductive WALError where
  | CorruptRecord
  deriving DecidableEq

/-- `Read::read_exact` over an in-memory stream: on success returns the
`n` bytes read and the rest of the stream; on end-of-file inside the read
it consumes the whole stream and returns the buffer contents, which are
the bytes actually read followed by the zeroes the caller initialised the
buffer with (`[0; n]`). -/
def readExact (stream : List Nat) (n : Nat) : Except (List Nat) (List Nat × List Nat) :=
  if n ≤ stream.length then Except.ok (stream.take n, stream.drop n)
  else Except.error (stream ++ List.replicate (n - stream.length) 0)

/-- `WALIterator::next` (src/wal_iterator.rs lines 34-83): decodes one
record from the front of the stream, returning the produced item and the
rest of the stream.  `none` models the iterator returning `None`, and
`Except.error` a `Some(Err(CorruptRecord))` result. -/
def WALIterator.next (stream : List Nat) : Option (Except WALError WALEntry) × List Nat :=
  match readExact stream 8 with
  | Except.error buf =>
    if buf = List.replicate 8 0 then (none, [])
    else (some (Except.error WALError.CorruptRecord), [])
  | Except.ok (lenBuf, s1) =>
    let keyLen := fromLe lenBuf
    match readExact s1 1 with
    | Except.error _ => (some (Except.error WALError.CorruptRecord), [])
    | Except.ok (boolBuf, s2) =>
      let deleted := boolBuf.headD 0 ≠ 0
      if deleted then
        match readExact s2 keyLen with
        | Except.error _ => (some (Except.error WALError.CorruptRecord), [])
        | Except.ok (key, s3) =>
          match readExact s3 16 with
          | Except.error _ => (some (Except.error WALError.CorruptRecord), [])
          | Except.ok (tsBuf, s4) =>
            (some (Except.ok ⟨key, none, fromLe tsBuf, true⟩), s4)
      else
        match readExact s2 8 with
        | Except.error _ => (some (Except.error WALError.CorruptRecord), [])
        | Except.ok (vlenBuf, s3) =>
          let valueLen := fromLe vlenBuf
          match readExact s3 keyLen with
          | Except.error _ => (some (Except.error WALError.CorruptRecord), [])
          | Except.ok (key, s4) =>
            match readExact s4 valueLen with
            | Except.error _ => (some (Except.error WALError.CorruptRecord), [])
            | Except.ok (value, s5) =>
              match readExact s5 16 with
              | Except.error _ => (some (Except.error WALError.CorruptRecord), [])
              | Except.ok (tsBuf, s6) =>
                (some (Except.ok ⟨key, some value, fromLe tsBuf, false⟩), s6)

/-- The records the recovery loop consumes from one segment: repeated
`WALIterator::next` until end-of-stream or the first corrupt record (the
loop in `WAL::load_from_dir` treats both as segment-exhausted).  `fuel`
bounds the number of iterations; callers pass the stream's byte length,
which suffices because every decoded record consumes at least 25 bytes. -/
def readAll : Nat → List Nat → List WALEntry
  | 0, _ => []
  | fuel + 1, stream =>
    match WALIterator.next stream with
    | (some (Except.ok e), rest) => e :: readAll fuel rest
    | _ => []

/-- The bytes `WAL::set` appends to its buffered writer
(src/wal.rs lines 83-92): key length (8-byte LE `usize`), the flag byte
`false as u8 = 0`, value length, key, value, timestamp (16-byte LE). -/
def WAL.set (key value : Bytes) (timestamp : Nat) : List Nat :=
  leBytes key.length 8 ++ ([0] ++ (leBytes value.length 8 ++ (key ++ (value ++ leBytes timestamp 16))))

/-- The bytes `WAL::delete` appends (src/wal.rs lines 97-104): key length,
the flag byte `true as u8 = 1`, key, timestamp. -/
def WAL.delete (key : Bytes) (timestamp : Nat) : List Nat :=
  leBytes key.length 8 ++ ([1] ++ (key ++ leBytes timestamp 16))

/-- `MemTableEntry` (src/mem_table.rs lines 1-7). -/
structure MemTableEntry where
  key : Bytes
  value : Option Bytes
  timestamp : Nat
  deleted : Bool
  deriving DecidableEq

instance : Inhabited MemTableEntry := ⟨⟨[], none, 0, false⟩⟩

/-- `MemTable` (src/mem_table.rs lines 17-20). -/
structure MemTable where
  entries : List MemTableEntry
  size : Nat
  deriving DecidableEq

/-- `MemTable::new`. -/
def MemTable.new : MemTable := ⟨[], 0⟩

/-- The key projection of the entries, the view
`binary_search_by_key(&key, |e| e.key.as_slice())` probes. -/
def tkeys (t : MemTable) : List Bytes := t.entries.map MemTableEntry.key

/-- The loop of Rust `slice::binary_search_by_key`: on `Ordering::Less`
move `left` past `mid`, on `Ordering::Greater` move `right` to `mid`,
on equality return `Ok(mid)`; once the window is empty return
`Err(left)`, the insertion index.  `fuel` bounds the iteration count;
the caller passes the slice length, which always suffices because
`right - left` strictly decreases, so the fuel-exhausted fallback is
unreachable there. -/
def bsLoop (keys : List Bytes) (key : Bytes) : Nat → Nat → Nat → Except Nat Nat
  | 0, left, _ => Except.error left
  | fuel + 1, left, right =>
    if left < right then
      let mid := left + (right - left) / 2
      match cmpBytes (keys.getD mid []) key with
      | Ordering.lt => bsLoop keys key fuel (mid + 1) right
      | Ordering.gt => bsLoop keys key fuel left mid
      | Ordering.eq => Except.ok mid
    else Except.error left

/-- `MemTable::get_index` (src/mem_table.rs lines 101-105). -/
def MemTable.get_index (t : MemTable) (key : Bytes) : Except Nat Nat :=
  bsLoop (tkeys t) key (tkeys t).length 0 (tkeys t).length

/-- `MemTable::set` (src/mem_table.rs lines 32-57). -/
def MemTable.set (t : MemTable) (key value : Bytes) (timestamp : Nat) : MemTable :=
  let entry : MemTableEntry := ⟨key, some value, timestamp, false⟩
  match t.get_index key with
  | Except.ok idx =>
    let sz :=
      match (t.entries.getD idx default).value with
      | some v =>
        if value.length < v.length then wsub t.size (v.length - value.length)
        else wadd t.size (value.length - v.length)
      | none => t.size
    ⟨t.entries.set idx entry, sz⟩
  | Except.error idx =>
    ⟨t.entries.insertIdx idx entry, wadd t.size (key.length + value.length + 16 + 1)⟩

/-- `MemTable::delete` (src/mem_table.rs lines 62-82). -/
def MemTable.delete (t : MemTable) (key : Bytes) (timestamp : Nat) : MemTable :=
  let entry : MemTableEntry := ⟨key, none, timestamp, true⟩
  match t.get_index key with
  | Except.ok idx =>
    let sz :=
      match (t.entries.getD idx default).value with
      | some v => wsub t.size v.length
      | none => t.size
    ⟨t.entries.set idx entry, sz⟩
  | Except.error idx =>
    ⟨t.entries.insertIdx idx entry, wadd t.size (key.length + 16 + 1)⟩

/-- `MemTable::get` (src/mem_table.rs lines 87-95). -/
def MemTable.get (t : MemTable) (key : Bytes) : Option MemTableEntry :=
  match t.get_index key with
  | Except.ok idx =>
    if (t.entries.getD idx default).deleted then none
    else some (t.entries.getD idx default)
  | Except.error _ => none

/-- `MemTable::len`. -/
def MemTable.len (t : MemTable) : Nat := t.entries.length

/-- One MemTable mutation, as issued by the coordinator. -/
inductive Op where
  | set (key value : Bytes) (timestamp : Nat)
  | del (key : Bytes) (timestamp : Nat)
  deriving DecidableEq

/-- The key an operation addresses. -/
def Op.key : Op → Bytes
  | Op.set k _ _ => k
  | Op.del k _ => k

/-- Apply one operation to a MemTable. -/
def applyOp (t : MemTable) : Op → MemTable
  | Op.set k v ts => t.set k v ts
  | Op.del k ts => t.delete k ts

/-- Apply a sequence of operations to the empty MemTable. -/
def applyOps (ops : List Op) : MemTable := ops.foldl applyOp MemTable.new

/-- The representation invariant of reachable MemTables: keys strictly
ascending in lexicographic byte order, and an entry is a tombstone
exactly when its value is absent. -/
def MemTable.WF (t : MemTable) : Prop :=
  List.Pairwise bytesLt (tkeys t) ∧ ∀ e ∈ t.entries, (e.deleted = true ↔ e.value = none)

/-- A directory entry, as seen by `files_with_ext`: the file name (used
for sorting), the result of `Path::extension()` on it, and the file's
byte content. -/
structure DirFile where
  name : Bytes
  ext : Option Bytes
  data : List Nat
  deriving DecidableEq

/-- The extension of WAL segment files, the byte string of the literal
passed to `files_with_ext` by `WAL::load_from_dir`. -/
def walExt : Bytes := [119, 97, 108]

/-- `files_with_ext` (src/utils.rs lines 5-14): keeps the files whose
extension equals `ext`.  The source calls `path.extension().unwrap()`,
which panics when a file has no extension; the panic is modelled by
`none`. -/
def files_with_ext : List DirFile → Bytes → Option (List DirFile)
  | [], _ => some []
  | f :: fs, ext =>
    match f.ext with
    | none => none
    | some e =>
      match files_with_ext fs ext with
      | none => none
      | some rest => if e = ext then some (f :: rest) else some rest

/-- Insert one file into a name-sorted list, keeping ascending
lexicographic order. -/
def insertSorted (f : DirFile) : List DirFile → List DirFile
  | [] => [f]
  | g :: gs =>
    if cmpBytes f.name g.name = Ordering.gt then g :: insertSorted f gs
    else f :: g :: gs

/-- `wal_files.sort()`: ascending lexicographic order of the file names
(the `PathBuf` order for files of one directory). -/
def sortFiles (fs : List DirFile) : List DirFile :=
  fs.foldl (fun acc f => insertSorted f acc) []

/-- The decoded records of one segment file. -/
def segEntries (data : List Nat) : List WALEntry := readAll data.length data

/-- The recovery loop body of `WAL::load_from_dir`: a delete record calls
`MemTable::delete`, any other record calls `MemTable::set` (a non-deleted
decoded record always carries a value; `unwrap` is modelled by `getD`). -/
def applyWALEntry (t : MemTable) (e : WALEntry) : MemTable :=
  if e.deleted then t.delete e.key e.timestamp
  else t.set e.key (e.value.getD []) e.timestamp

/-- The MemTable built by `WAL::load_from_dir` (src/wal.rs lines 49-80):
take the files with extension `wal` (panicking on extension-less files),
sort them by name, and replay each segment's records in file order into a
fresh MemTable.  The new successor segment receives the same records and
does not influence the MemTable, so it is not modelled here. -/
def WAL.load_from_dir (dir : List DirFile) : Option MemTable :=
  (files_with_ext dir walExt).map fun wals =>
    (sortFiles wals).foldl (fun t f => (segEntries f.data).foldl applyWALEntry t) MemTable.new

/-- `DatabaseEntry` (src/database.rs lines 6-11). -/
structure DatabaseEntry where
  key : Bytes
  value : Bytes
  timestamp : Nat
  deriving DecidableEq

/-- `Database` (src/database.rs lines 27-31): the MemTable plus the byte
content of the live WAL (buffered and flushed bytes together; `dir` is
irrelevant to the claims and omitted). -/
structure Database where
  memTable : MemTable
  wal : List Nat
  deriving DecidableEq

/-- `Database::get` (src/database.rs lines 46-56): clones key, value and
timestamp of a present entry (`value.unwrap()` is modelled by `getD`;
reachable non-deleted entries always carry a value). -/
def Database.get (db : Database) (key : Bytes) : Option DatabaseEntry :=
  match db.memTable.get key with
  | some e => some ⟨e.key, e.value.getD [], e.timestamp⟩
  | none => none

/-- `Database::set` (src/database.rs lines 58-75).  `walOk` and `flushOk`
are the outcomes of the two fallible I/O steps (`WAL::set` and
`WAL::flush`); on failure the function returns `Err(0)` without touching
the MemTable, on success it appends the record bytes, updates the
MemTable with the same key, value and timestamp, and returns `Ok(1)`. -/
def Database.set (db : Database) (key value : Bytes) (timestamp : Nat)
    (walOk flushOk : Bool) : Except Nat Nat × Database :=
  if walOk = false then (Except.error 0, db)
  else
    let db1 : Database := ⟨db.memTable, db.wal ++ WAL.set key value timestamp⟩
    if flushOk = false then (Except.error 0, db1)
    else (Except.ok 1, ⟨db1.memTable.set key value timestamp, db1.wal⟩)

/-- `Database::delete` (src/database.rs lines 77-94), same pipeline with
a delete record. -/
def Database.delete (db : Database) (key : Bytes) (timestamp : Nat)
    (walOk flushOk : Bool) : Except Nat Nat × Database :=
  if walOk = false then (Except.error 0, db)
  else
    let db1 : Database := ⟨db.memTable, db.wal ++ WAL.delete key timestamp⟩
    if flushOk = false then (Except.error 0, db1)
    else (Except.ok 1, ⟨db1.memTable.delete key timestamp, db1.wal⟩)

/-- The last operation of a sequence that addresses key `k`. -/
def lastOpFor (ops : List Op) (k : Bytes) : Option Op :=
  (ops.filter (fun op => decide (op.key = k))).getLast?

instance : DecidableEq (Except WALError WALEntry) := fun a b =>
  match a, b with
  | Except.error x, Except.error y =>
    if h : x = y then isTrue (by rw [h]) else isFalse (by intro hc; cases hc; exact h rfl)
  | Except.ok x, Except.ok y =>
    if h : x = y then isTrue (by rw [h]) else isFalse (by intro hc; cases hc; exact h rfl)
  | Except.error _, Except.ok _ => isFalse (by intro hc; cases hc)
  | Except.ok _, Except.error _ => isFalse (by intro hc; cases hc)

/-- All records of all WAL segments, segments in ascending filename
order, records within each segment in physical file order. -/
def allRecords (wals : List DirFile) : List WALEntry :=
  (sortFiles wals).flatMap fun f => segEntries f.data

/-- Spec-side replay (from the spec's words): fold all records of all
segments, in that order, into an initially empty MemTable. -/
def replaySpec (wals : List DirFile) : MemTable :=
  (allRecords wals).foldl applyWALEntry MemTable.new

/-- The last record of a record sequence holding key `k`. -/
def lastRecordFor (recs : List WALEntry) (k : Bytes) : Option WALEntry :=
  (recs.filter fun e => decide (e.key = k)).getLast?

/-- The MemTable operation one replayed record performs. -/
def WALEntry.toOp (e : WALEntry) : Op :=
  if e.deleted then Op.del e.key e.timestamp
  else Op.set e.key (e.value.getD []) e.timestamp


/-- The entry a table currently stores for a key — the spec's notion of
presence in the size-accounting rules (on well-formed tables it agrees
with `get_index`, proved below). -/
def lookupEntry (t : MemTable) (k : Bytes) : Option MemTableEntry :=
  t.entries.find? fun e => decide (e.key = k)

/-- The size delta of one operation under the claim's accounting rules,
read literally: a fresh live insertion adds `len(key)+len(value)+16+1`,
a fresh tombstone adds `len(key)+16+1`, overwriting an existing entry
with a new live value adds the signed difference
`len(new_value) − len(old_value)` (an absent old value contributes
length 0), and overwriting with a tombstone subtracts the old value's
length. -/
def specDelta (t : MemTable) : Op → Int
  | Op.set k v _ =>
    match lookupEntry t k with
    | none => (k.length : Int) + v.length + 16 + 1
    | some e => (v.length : Int) - ((e.value.getD []).length : Int)
  | Op.del k _ =>
    match lookupEntry t k with
    | none => (k.length : Int) + 16 + 1
    | some e => - (((e.value.getD []).length : Int))

/-- The running spec sums after every prefix of the operations. -/
def specSizes (t : MemTable) (s : Int) : List Op → List Int
  | [] => []
  | op :: ops => (s + specDelta t op) :: specSizes (applyOp t op) (s + specDelta t op) ops

/-- The accounting rules the code implements: like the spec's rules
except that overwriting an entry whose value is absent (a tombstone)
leaves the size unchanged, for `set` and for `delete` alike. -/
def amendedDelta (t : MemTable) : Op → Int
  | Op.set k v _ =>
    match lookupEntry t k with
    | none => (k.length : Int) + v.length + 16 + 1
    | some e =>
      match e.value with
      | some ov => (v.length : Int) - (ov.length : Int)
      | none => 0
  | Op.del k _ =>
    match lookupEntry t k with
    | none => (k.length : Int) + 16 + 1
    | some e =>
      match e.value with
      | some ov => - ((ov.length : Int))
      | none => 0

/-- The running amended sums after every prefix. -/
def amendedSizes (t : MemTable) (s : Int) : List Op → List Int
  | [] => []
  | op :: ops =>
    (s + amendedDelta t op) :: amendedSizes (applyOp t op) (s + amendedDelta t op) ops

/-- The size the code reports after every prefix. -/
def codeSizes (t : MemTable) : List Op → List Nat
  | [] => []
  | op :: ops => (applyOp t op).size :: codeSizes (applyOp t op) ops

/-- The code's sizes as integers, for comparing with the running sums. -/
def intSizes (l : List Nat) : List Int := l.map fun n => (n : Int)

/-- Sanity check against `test_mem_table_put_start` of src/mem_table.rs:
three fresh inserts give size 108 and keys in sorted order. -/
example :
    (((MemTable.new.set [76, 105, 109, 101] [76, 105, 109, 101, 32, 83, 109, 111, 111, 116, 104, 105, 101] 0).set
        [79, 114, 97, 110, 103, 101] [79, 114, 97, 110, 103, 101, 32, 83, 109, 111, 111, 116, 104, 105, 101] 10).set
        [65, 112, 112, 108, 101] [65, 112, 112, 108, 101, 32, 83, 109, 111, 111, 116, 104, 105, 101] 20).size = 108 := by
  decide

/-- Sanity check against `test_mem_table_delete_exists`: insert then
delete leaves one tombstone and size 22. -/
example :
    ((MemTable.new.set [65, 112, 112, 108, 101] [65, 112, 112, 108, 101, 32, 83, 109, 111, 111, 116, 104, 105, 101] 0).delete
        [65, 112, 112, 108, 101] 10) =
      ⟨[⟨[65, 112, 112, 108, 101], none, 10, true⟩], 22⟩ := by
  decide

/-- Equality case of the lexicographic comparison. -/
theorem cmpBytes_eq_iff : ∀ a b : Bytes, cmpBytes a b = Ordering.eq ↔ a = b := by
  intro a
  induction a with
  | nil => intro b; cases b <;> simp [cmpBytes]
  | cons x xs ih =>
    intro b
    cases b with
    | nil => simp [cmpBytes]
    | cons y ys =>
      by_cases h1 : x < y
      · simp [cmpBytes, h1]
        omega
      · by_cases h2 : y < x
        · simp [cmpBytes, h1, h2]
          omega
        · have hxy : x = y := by omega
          simp [cmpBytes, h1, h2, hxy, ih]

/-- The comparison is antisymmetric: a greater-than verdict is a
less-than verdict with the arguments swapped. -/
theorem cmpBytes_gt_iff : ∀ a b : Bytes, cmpBytes a b = Ordering.gt ↔ bytesLt b a := by
  intro a
  induction a with
  | nil => intro b; cases b <;> simp [cmpBytes, bytesLt]
  | cons x xs ih =>
    intro b
    cases b with
    | nil => simp [cmpBytes, bytesLt]
    | cons y ys =>
      by_cases h1 : x < y
      · have h2 : ¬ y < x := by omega
        simp [cmpBytes, bytesLt, h1, h2]
      · by_cases h2 : y < x
        · simp [cmpBytes, bytesLt, h1, h2]
        · simp [cmpBytes, bytesLt, h1, h2, ih, bytesLt]

/-- Transitivity of the strict lexicographic order. -/
theorem bytesLt_trans {a b c : Bytes} (h1 : bytesLt a b) (h2 : bytesLt b c) : bytesLt a c := by
  induction a generalizing b c with
  | nil =>
    cases b with
    | nil => simp [bytesLt, cmpBytes] at h1
    | cons y ys =>
      cases c with
      | nil => simp [bytesLt, cmpBytes] at h2
      | cons z zs => simp [bytesLt, cmpBytes]
  | cons x xs ih =>
    cases b with
    | nil => simp [bytesLt, cmpBytes] at h1
    | cons y ys =>
      cases c with
      | nil => simp [bytesLt, cmpBytes] at h2
      | cons z zs =>
        simp only [bytesLt, cmpBytes] at h1 h2 ⊢
        by_cases hxy : x < y
        · by_cases hyz : y < z
          · have hxz : x < z := by omega
            simp [hxz]
          · by_cases hzy : z < y
            · simp [hyz, hzy] at h2
            · have hyzeq : y = z := by omega
              subst hyzeq
              simp [hxy]
        · by_cases hyx : y < x
          · simp [hxy, hyx] at h1
          · have hxyeq : x = y := by omega
            subst hxyeq
            simp [hxy, lt_irrefl] at h1 ⊢
            by_cases hyz : x < z
            · simp [hyz]
            · by_cases hzy : z < x
              · simp [hyz, hzy] at h2
              · have : x = z := by omega
                subst this
                simp [lt_irrefl] at h1 h2 ⊢
                exact ih h1 h2

/-- Strictly smaller byte strings are distinct. -/
theorem bytesLt_ne {a b : Bytes} (h : bytesLt a b) : a ≠ b := by
  intro hab
  subst hab
  have := (cmpBytes_eq_iff a a).mpr rfl
  rw [bytesLt] at h
  simp [this] at h

/-- Loop invariant of the binary search: on a strictly sorted key list,
with everything left of the window strictly below the probe key and
everything right of it strictly above, the loop either finds an index
holding the key or returns the unique insertion point. -/
theorem bsLoop_spec (keys : List Bytes) (key : Bytes)
    (hs : List.Pairwise bytesLt keys) :
    ∀ fuel left right, right - left ≤ fuel → left ≤ right → right ≤ keys.length →
    (∀ j, j < left → j < keys.length → bytesLt (keys.getD j []) key) →
    (∀ j, right ≤ j → j < keys.length → bytesLt key (keys.getD j [])) →
    (match bsLoop keys key fuel left right with
     | Except.ok i => i < keys.length ∧ keys.getD i [] = key
     | Except.error i =>
       i ≤ keys.length ∧
       (∀ j, j < keys.length →
         (j < i → bytesLt (keys.getD j []) key) ∧ (i ≤ j → bytesLt key (keys.getD j [])))) := by
  have hmono : ∀ i j, i < j → j < keys.length → bytesLt (keys.getD i []) (keys.getD j []) := by
    intro i j hij hj
    have hi : i < keys.length := lt_trans hij hj
    have := (List.pairwise_iff_getElem).mp hs i j hi hj hij
    rwa [List.getD_eq_getElem keys [] hi, List.getD_eq_getElem keys [] hj]
  intro fuel
  induction fuel with
  | zero =>
    intro left right hfuel hlr hrlen hlo hhi
    have hleq : left = right := by omega
    subst hleq
    simp only [bsLoop]
    refine ⟨by omega, ?_⟩
    intro j hj
    exact ⟨fun hlt => hlo j hlt hj, fun hge => hhi j hge hj⟩
  | succ fuel ih =>
    intro left right hfuel hlr hrlen hlo hhi
    simp only [bsLoop]
    by_cases hcond : left < right
    · simp only [if_pos hcond]
      have hmidlt : left + (right - left) / 2 < right := by omega
      have hmidge : left ≤ left + (right - left) / 2 := by omega
      have hmidlen : left + (right - left) / 2 < keys.length := lt_of_lt_of_le hmidlt hrlen
      rcases hcmp : cmpBytes (keys.getD (left + (right - left) / 2) []) key with _ | _ | _
      · have hmidkey : bytesLt (keys.getD (left + (right - left) / 2) []) key := hcmp
        have := ih (left + (right - left) / 2 + 1) right (by omega) (by omega) hrlen
          (fun j hj hjlen => by
            rcases Nat.lt_or_ge j (left + (right - left) / 2) with hj2 | hj2
            · exact bytesLt_trans (hmono j _ hj2 hmidlen) hmidkey
            · have : j = left + (right - left) / 2 := by omega
              subst this
              exact hmidkey)
          hhi
        exact this
      · exact ⟨hmidlen, (cmpBytes_eq_iff _ _).mp hcmp⟩
      · have hmidkey : bytesLt key (keys.getD (left + (right - left) / 2) []) :=
          (cmpBytes_gt_iff _ _).mp hcmp
        have := ih left (left + (right - left) / 2) (by omega) (by omega) (by omega)
          hlo
          (fun j hj hjlen => by
            rcases Nat.lt_or_ge (left + (right - left) / 2) j with hj2 | hj2
            · exact bytesLt_trans hmidkey (hmono _ j hj2 hjlen)
            · have : j = left + (right - left) / 2 := by omega
              subst this
              exact hmidkey)
        exact this
    · simp only [if_neg hcond]
      have hleq : left = right := by omega
      subst hleq
      refine ⟨by omega, ?_⟩
      intro j hj
      exact ⟨fun hlt => hlo j hlt hj, fun hge => hhi j hge hj⟩

/-- The key list has the same length as the entry list. -/
theorem tkeys_length (t : MemTable) : (tkeys t).length = t.entries.length := by
  simp [tkeys]

/-- Keys of the projection agree with keys of the entries. -/
theorem tkeys_getD {t : MemTable} {i : Nat} (h : i < t.entries.length) :
    (tkeys t).getD i [] = (t.entries.getD i default).key := by
  rw [List.getD_eq_getElem _ _ (by simpa [tkeys] using h), List.getD_eq_getElem _ _ h]
  simp [tkeys]

/-- On a sorted table, keys at increasing indices strictly increase. -/
theorem sorted_keys_lt {t : MemTable} (hs : List.Pairwise bytesLt (tkeys t))
    {i j : Nat} (hij : i < j) (hj : j < t.entries.length) :
    bytesLt (t.entries.getD i default).key (t.entries.getD j default).key := by
  have hi : i < t.entries.length := lt_trans hij hj
  have := (List.pairwise_iff_getElem).mp hs i j
    (by simpa [tkeys] using hi) (by simpa [tkeys] using hj) hij
  rw [← tkeys_getD hi, ← tkeys_getD hj,
    List.getD_eq_getElem _ _ (by simpa [tkeys] using hi),
    List.getD_eq_getElem _ _ (by simpa [tkeys] using hj)]
  exact this

/-- A successful `get_index` on a sorted table returns an in-range index
holding the searched key. -/
theorem get_index_ok {t : MemTable} {key : Bytes} {i : Nat}
    (hs : List.Pairwise bytesLt (tkeys t)) (h : t.get_index key = Except.ok i) :
    i < t.entries.length ∧ (t.entries.getD i default).key = key := by
  have hspec := bsLoop_spec (tkeys t) key hs (tkeys t).length 0 (tkeys t).length
    (by omega) (by omega) (le_refl _)
    (fun j hj _ => absurd hj (by omega))
    (fun j hge hlt => absurd (lt_of_le_of_lt hge hlt) (lt_irrefl _))
  rw [MemTable.get_index] at h
  rw [h] at hspec
  exact ⟨by simpa [tkeys] using hspec.1, by
    rw [← tkeys_getD (by simpa [tkeys] using hspec.1)]; exact hspec.2⟩

/-- A failed `get_index` on a sorted table returns the insertion point:
everything before it is strictly below the key, everything from it on is
strictly above. -/
theorem get_index_err {t : MemTable} {key : Bytes} {i : Nat}
    (hs : List.Pairwise bytesLt (tkeys t)) (h : t.get_index key = Except.error i) :
    i ≤ t.entries.length ∧
    (∀ j, j < t.entries.length →
      (j < i → bytesLt (t.entries.getD j default).key key) ∧
      (i ≤ j → bytesLt key (t.entries.getD j default).key)) := by
  have hspec := bsLoop_spec (tkeys t) key hs (tkeys t).length 0 (tkeys t).length
    (by omega) (by omega) (le_refl _)
    (fun j hj _ => absurd hj (by omega))
    (fun j hge hlt => absurd (lt_of_le_of_lt hge hlt) (lt_irrefl _))
  rw [MemTable.get_index] at h
  rw [h] at hspec
  refine ⟨by simpa [tkeys] using hspec.1, ?_⟩
  intro j hj
  have := hspec.2 j (by simpa [tkeys] using hj)
  rw [tkeys_getD hj] at this
  exact this

/-- When `get_index` fails, no entry holds the key. -/
theorem get_index_err_not_mem {t : MemTable} {key : Bytes} {i : Nat}
    (hs : List.Pairwise bytesLt (tkeys t)) (h : t.get_index key = Except.error i) :
    ∀ e ∈ t.entries, e.key ≠ key := by
  intro e he
  rcases List.mem_iff_getElem.mp he with ⟨j, hj, hje⟩
  have hgd : t.entries.getD j default = e := by
    rw [List.getD_eq_getElem _ _ hj]; exact hje
  rcases (get_index_err hs h).2 j hj with ⟨h1, h2⟩
  rcases Nat.lt_or_ge j i with hji | hji
  · have := h1 hji
    rw [hgd] at this
    exact bytesLt_ne this
  · have := h2 hji
    rw [hgd] at this
    exact (bytesLt_ne this).symm

/-- On a sorted table, an entry holding the key is found by `get_index`. -/
theorem get_index_found {t : MemTable} {key : Bytes} {e : MemTableEntry}
    (hs : List.Pairwise bytesLt (tkeys t)) (he : e ∈ t.entries) (hk : e.key = key) :
    ∃ i, t.get_index key = Except.ok i ∧ i < t.entries.length ∧
      t.entries.getD i default = e := by
  rcases List.mem_iff_getElem.mp he with ⟨j, hj, hje⟩
  have hgd : t.entries.getD j default = e := by
    rw [List.getD_eq_getElem _ _ hj]; exact hje
  cases hidx : t.get_index key with
  | error i => exact absurd hk (get_index_err_not_mem hs hidx e he)
  | ok i =>
    have hok := get_index_ok hs hidx
    refine ⟨i, rfl, hok.1, ?_⟩
    rcases Nat.lt_trichotomy i j with hij | hij | hij
    · have := sorted_keys_lt hs hij hj
      rw [hok.2, hgd, hk] at this
      exact absurd rfl (bytesLt_ne this)
    · subst hij; exact hgd
    · have := sorted_keys_lt hs hij hok.1
      rw [hok.2, hgd, hk] at this
      exact absurd rfl (bytesLt_ne this)

/-- Replacing an element of a list by itself leaves the list unchanged. -/
theorem list_set_self {α : Type} (l : List α) (i : Nat) (a : α)
    (hi : i < l.length) (ha : l[i] = a) : l.set i a = l := by
  apply List.ext_getElem
  · simp
  · intro j h1 h2
    rw [List.getElem_set]
    split
    · next heq => subst heq; exact ha.symm
    · rfl

/-- An element of an updated list is the new element or an old element. -/
theorem list_mem_set {α : Type} {l : List α} {i : Nat} {a x : α}
    (h : x ∈ l.set i a) : x = a ∨ x ∈ l := by
  rcases List.mem_iff_getElem.mp h with ⟨j, hj, hje⟩
  rw [List.getElem_set] at hje
  by_cases hij : i = j
  · simp [hij] at hje
    exact Or.inl hje.symm
  · simp [hij] at hje
    exact Or.inr (hje ▸ List.getElem_mem _)

/-- `insertIdx` inside the range splits into take, element, drop. -/
theorem insertIdx_eq_take_drop {α : Type} :
    ∀ (i : Nat) (a : α) (l : List α), i ≤ l.length →
      l.insertIdx i a = l.take i ++ a :: l.drop i := by
  intro i a
  induction i with
  | zero => intro l _; simp
  | succ i ih =>
    intro l hl
    cases l with
    | nil => simp at hl
    | cons x xs =>
      simp only [List.insertIdx_succ_cons, List.take, List.drop, List.cons_append]
      rw [ih xs (by simpa using hl)]

/-- Inserting a key at its insertion point keeps the key list sorted. -/
theorem pairwise_insertIdx {l : List Bytes} {i : Nat} {k : Bytes}
    (hs : List.Pairwise bytesLt l) (hi : i ≤ l.length)
    (hlo : ∀ j, ∀ _ : j < l.length, j < i → bytesLt l[j] k)
    (hhi : ∀ j, ∀ _ : j < l.length, i ≤ j → bytesLt k l[j]) :
    List.Pairwise bytesLt (l.insertIdx i k) := by
  rw [insertIdx_eq_take_drop i k l hi]
  rw [List.pairwise_append]
  refine ⟨hs.sublist (List.take_sublist _ _), ?_, ?_⟩
  · rw [List.pairwise_cons]
    constructor
    · intro b hb
      rcases List.mem_iff_getElem.mp hb with ⟨j, hj, hje⟩
      simp only [List.getElem_drop] at hje
      have hjl : i + j < l.length := by
        simp only [List.length_drop] at hj; omega
      exact hje ▸ hhi (i + j) hjl (by omega)
    · exact hs.sublist (List.drop_sublist _ _)
  · intro a ha b hb
    rcases List.mem_iff_getElem.mp ha with ⟨j, hj, hje⟩
    simp only [List.getElem_take] at hje
    have hji : j < i := by
      simp only [List.length_take] at hj; omega
    have hjl : j < l.length := by omega
    have hak : bytesLt a k := hje ▸ hlo j hjl hji
    rcases List.mem_cons.mp hb with hb | hb
    · subst hb; exact hak
    · rcases List.mem_iff_getElem.mp hb with ⟨j2, hj2, hje2⟩
      simp only [List.getElem_drop] at hje2
      have hj2l : i + j2 < l.length := by
        simp only [List.length_drop] at hj2; omega
      exact bytesLt_trans hak (hje2 ▸ hhi (i + j2) hj2l (by omega))

/-- Membership in a list after `set`, indexed form. -/
theorem list_mem_set_iff {α : Type} {l : List α} {i : Nat} {a x : α} (hi : i < l.length) :
    x ∈ l.set i a ↔ x = a ∨ ∃ j, ∃ _ : j < l.length, j ≠ i ∧ l[j] = x := by
  constructor
  · intro h
    rcases List.mem_iff_getElem.mp h with ⟨j, hj, hje⟩
    rw [List.getElem_set] at hje
    rw [List.length_set] at hj
    by_cases hij : i = j
    · simp only [if_pos hij] at hje
      exact Or.inl hje.symm
    · simp only [if_neg hij] at hje
      exact Or.inr ⟨j, hj, fun h2 => hij h2.symm, hje⟩
  · intro h
    rcases h with rfl | ⟨j, hj, hne, hje⟩
    · refine List.mem_iff_getElem.mpr ⟨i, by simpa using hi, ?_⟩
      rw [List.getElem_set]
      simp
    · refine List.mem_iff_getElem.mpr ⟨j, by simpa using hj, ?_⟩
      rw [List.getElem_set, if_neg (fun h2 => hne h2.symm)]
      exact hje

/-- `map` commutes with `insertIdx`. -/
theorem map_insertIdx {α β : Type} (f : α → β) :
    ∀ (i : Nat) (a : α) (l : List α),
      (l.insertIdx i a).map f = (l.map f).insertIdx i (f a) := by
  intro i a l
  induction l generalizing i with
  | nil => cases i <;> simp
  | cons x xs ih => cases i <;> simp [ih]

/-- The entries after `MemTable::set`: the new live entry, plus exactly
the old entries whose key differs from the written key. -/
theorem mem_set_entries {t : MemTable} (hwf : t.WF) (k v : Bytes) (ts : Nat) :
    ∀ e, e ∈ (t.set k v ts).entries ↔
      e = ⟨k, some v, ts, false⟩ ∨ (e ∈ t.entries ∧ e.key ≠ k) := by
  intro e
  rw [MemTable.set]
  cases hidx : t.get_index k with
  | ok i =>
    have hok := get_index_ok hwf.1 hidx
    have hik : (t.entries.getD i default).key = k := hok.2
    simp only
    rw [list_mem_set_iff hok.1]
    constructor
    · rintro (rfl | ⟨j, hj, hne, hje⟩)
      · exact Or.inl rfl
      · refine Or.inr ⟨hje ▸ List.getElem_mem _, ?_⟩
        intro hkey
        have hgdj : t.entries.getD j default = t.entries[j] := List.getD_eq_getElem _ _ hj
        rcases Nat.lt_trichotomy j i with hji | hji | hji
        · have := sorted_keys_lt hwf.1 hji hok.1
          rw [hik, hgdj, hje, hkey] at this
          exact absurd rfl (bytesLt_ne this)
        · exact hne hji
        · have := sorted_keys_lt hwf.1 hji hj
          rw [hik, hgdj, hje, hkey] at this
          exact absurd rfl (bytesLt_ne this)
    · rintro (rfl | ⟨he, hne⟩)
      · exact Or.inl rfl
      · rcases List.mem_iff_getElem.mp he with ⟨j, hj, hje⟩
        refine Or.inr ⟨j, hj, ?_, hje⟩
        intro hji
        subst hji
        rw [List.getD_eq_getElem _ _ hj, hje] at hik
        exact hne hik
  | error i =>
    have herr := get_index_err hwf.1 hidx
    simp only
    rw [List.mem_insertIdx herr.1]
    constructor
    · rintro (rfl | he)
      · exact Or.inl rfl
      · exact Or.inr ⟨he, get_index_err_not_mem hwf.1 hidx e he⟩
    · rintro (rfl | ⟨he, _⟩)
      · exact Or.inl rfl
      · exact Or.inr he

/-- The entries after `MemTable::delete`: the new tombstone, plus exactly
the old entries whose key differs from the deleted key. -/
theorem mem_delete_entries {t : MemTable} (hwf : t.WF) (k : Bytes) (ts : Nat) :
    ∀ e, e ∈ (t.delete k ts).entries ↔
      e = ⟨k, none, ts, true⟩ ∨ (e ∈ t.entries ∧ e.key ≠ k) := by
  intro e
  rw [MemTable.delete]
  cases hidx : t.get_index k with
  | ok i =>
    have hok := get_index_ok hwf.1 hidx
    have hik : (t.entries.getD i default).key = k := hok.2
    simp only
    rw [list_mem_set_iff hok.1]
    constructor
    · rintro (rfl | ⟨j, hj, hne, hje⟩)
      · exact Or.inl rfl
      · refine Or.inr ⟨hje ▸ List.getElem_mem _, ?_⟩
        intro hkey
        have hgdj : t.entries.getD j default = t.entries[j] := List.getD_eq_getElem _ _ hj
        rcases Nat.lt_trichotomy j i with hji | hji | hji
        · have := sorted_keys_lt hwf.1 hji hok.1
          rw [hik, hgdj, hje, hkey] at this
          exact absurd rfl (bytesLt_ne this)
        · exact hne hji
        · have := sorted_keys_lt hwf.1 hji hj
          rw [hik, hgdj, hje, hkey] at this
          exact absurd rfl (bytesLt_ne this)
    · rintro (rfl | ⟨he, hne⟩)
      · exact Or.inl rfl
      · rcases List.mem_iff_getElem.mp he with ⟨j, hj, hje⟩
        refine Or.inr ⟨j, hj, ?_, hje⟩
        intro hji
        subst hji
        rw [List.getD_eq_getElem _ _ hj, hje] at hik
        exact hne hik
  | error i =>
    have herr := get_index_err hwf.1 hidx
    simp only
    rw [List.mem_insertIdx herr.1]
    constructor
    · rintro (rfl | he)
      · exact Or.inl rfl
      · exact Or.inr ⟨he, get_index_err_not_mem hwf.1 hidx e he⟩
    · rintro (rfl | ⟨he, _⟩)
      · exact Or.inl rfl
      · exact Or.inr he

/-- `getElem` form of `tkeys_getD`. -/
theorem tkeys_getElem {t : MemTable} {i : Nat} (h : i < t.entries.length)
    (h2 : i < (tkeys t).length) :
    (tkeys t)[i] = (t.entries.getD i default).key := by
  rw [← List.getD_eq_getElem (tkeys t) [] h2]
  exact tkeys_getD h


/-- Overwriting an entry found by `get_index` leaves the key list
unchanged (the new key equals the key already there). -/
theorem tkeys_set_ok {t : MemTable} {k : Bytes} {i : Nat}
    (hs : List.Pairwise bytesLt (tkeys t)) (hidx : t.get_index k = Except.ok i)
    (v : Bytes) (ts : Nat) : tkeys (t.set k v ts) = tkeys t := by
  have hok := get_index_ok hs hidx
  have h1 : tkeys (t.set k v ts) = (tkeys t).set i k := by
    rw [MemTable.set, hidx]
    show ((t.entries.set i _).map MemTableEntry.key) = _
    rw [List.map_set]
    rfl
  rw [h1]
  exact list_set_self _ i k (by simpa [tkeys] using hok.1)
    (by rw [tkeys_getElem hok.1 (by simpa [tkeys] using hok.1)]; exact hok.2)

/-- Same for `delete`. -/
theorem tkeys_delete_ok {t : MemTable} {k : Bytes} {i : Nat}
    (hs : List.Pairwise bytesLt (tkeys t)) (hidx : t.get_index k = Except.ok i)
    (ts : Nat) : tkeys (t.delete k ts) = tkeys t := by
  have hok := get_index_ok hs hidx
  have h1 : tkeys (t.delete k ts) = (tkeys t).set i k := by
    rw [MemTable.delete, hidx]
    show ((t.entries.set i _).map MemTableEntry.key) = _
    rw [List.map_set]
    rfl
  rw [h1]
  exact list_set_self _ i k (by simpa [tkeys] using hok.1)
    (by rw [tkeys_getElem hok.1 (by simpa [tkeys] using hok.1)]; exact hok.2)

/-- Inserting a fresh entry inserts its key into the key list. -/
theorem tkeys_set_err {t : MemTable} {k : Bytes} {i : Nat}
    (hidx : t.get_index k = Except.error i) (v : Bytes) (ts : Nat) :
    tkeys (t.set k v ts) = (tkeys t).insertIdx i k := by
  rw [MemTable.set, hidx]
  show ((t.entries.insertIdx i _).map MemTableEntry.key) = _
  rw [map_insertIdx]
  rfl

/-- Same for `delete`. -/
theorem tkeys_delete_err {t : MemTable} {k : Bytes} {i : Nat}
    (hidx : t.get_index k = Except.error i) (ts : Nat) :
    tkeys (t.delete k ts) = (tkeys t).insertIdx i k := by
  rw [MemTable.delete, hidx]
  show ((t.entries.insertIdx i _).map MemTableEntry.key) = _
  rw [map_insertIdx]
  rfl

/-- `MemTable::set` preserves the representation invariant. -/
theorem WF_set {t : MemTable} (hwf : t.WF) (k v : Bytes) (ts : Nat) : (t.set k v ts).WF := by
  refine ⟨?_, ?_⟩
  · cases hidx : t.get_index k with
    | ok i => rw [tkeys_set_ok hwf.1 hidx]; exact hwf.1
    | error i =>
      rw [tkeys_set_err hidx]
      have herr := get_index_err hwf.1 hidx
      apply pairwise_insertIdx hwf.1 (by simpa [tkeys] using herr.1)
      · intro j hj hji
        have hjlen : j < t.entries.length := by simpa [tkeys] using hj
        rw [tkeys_getElem hjlen hj]
        exact (herr.2 j hjlen).1 hji
      · intro j hj hji
        have hjlen : j < t.entries.length := by simpa [tkeys] using hj
        rw [tkeys_getElem hjlen hj]
        exact (herr.2 j hjlen).2 hji
  · intro e he
    rcases (mem_set_entries hwf k v ts e).mp he with rfl | ⟨he2, _⟩
    · simp
    · exact hwf.2 e he2

/-- `MemTable::delete` preserves the representation invariant. -/
theorem WF_delete {t : MemTable} (hwf : t.WF) (k : Bytes) (ts : Nat) : (t.delete k ts).WF := by
  refine ⟨?_, ?_⟩
  · cases hidx : t.get_index k with
    | ok i => rw [tkeys_delete_ok hwf.1 hidx]; exact hwf.1
    | error i =>
      rw [tkeys_delete_err hidx]
      have herr := get_index_err hwf.1 hidx
      apply pairwise_insertIdx hwf.1 (by simpa [tkeys] using herr.1)
      · intro j hj hji
        have hjlen : j < t.entries.length := by simpa [tkeys] using hj
        rw [tkeys_getElem hjlen hj]
        exact (herr.2 j hjlen).1 hji
      · intro j hj hji
        have hjlen : j < t.entries.length := by simpa [tkeys] using hj
        rw [tkeys_getElem hjlen hj]
        exact (herr.2 j hjlen).2 hji
  · intro e he
    rcases (mem_delete_entries hwf k ts e).mp he with rfl | ⟨he2, _⟩
    · simp
    · exact hwf.2 e he2

/-- The empty MemTable satisfies the invariant. -/
theorem WF_new : MemTable.new.WF := by
  refine ⟨List.Pairwise.nil, ?_⟩
  intro e he
  simp [MemTable.new] at he

/-- Applying one operation preserves the invariant. -/
theorem WF_applyOp {t : MemTable} (hwf : t.WF) (op : Op) : (applyOp t op).WF := by
  cases op with
  | set k v ts => exact WF_set hwf k v ts
  | del k ts => exact WF_delete hwf k ts

/-- Folding operations from an invariant-satisfying table preserves it. -/
theorem WF_foldl {t : MemTable} (hwf : t.WF) (ops : List Op) :
    (ops.foldl applyOp t).WF := by
  induction ops generalizing t with
  | nil => exact hwf
  | cons op ops ih => exact ih (WF_applyOp hwf op)

/-- Every table reachable from the empty table satisfies the invariant. -/
theorem WF_applyOps (ops : List Op) : (applyOps ops).WF :=
  WF_foldl WF_new ops

/-- What `MemTable::get` returns, characterised by membership: on a
well-formed table it returns exactly the live entry holding the key. -/
theorem get_some_iff {t : MemTable} (hwf : t.WF) {key : Bytes} {e : MemTableEntry} :
    t.get key = some e ↔ e ∈ t.entries ∧ e.key = key ∧ e.deleted = false := by
  constructor
  · intro h
    cases hidx : t.get_index key with
    | error i =>
      simp only [MemTable.get, hidx] at h
      cases h
    | ok i =>
      simp only [MemTable.get, hidx] at h
      have hok := get_index_ok hwf.1 hidx
      by_cases hd : (t.entries.getD i default).deleted = true
      · rw [if_pos hd] at h
        cases h
      · rw [if_neg hd] at h
        have he : t.entries.getD i default = e := Option.some_injective _ h
        subst he
        refine ⟨?_, hok.2, by simpa using hd⟩
        rw [List.getD_eq_getElem _ _ hok.1]
        exact List.getElem_mem _
  · rintro ⟨he, hk, hd⟩
    rcases get_index_found hwf.1 he hk with ⟨i, hidx, _, hgd⟩
    simp only [MemTable.get, hidx, hgd, hd]
    simp

/-- `MemTable::get` misses exactly when every entry holding the key is a
tombstone (in particular when no entry holds it). -/
theorem get_none_iff {t : MemTable} (hwf : t.WF) {key : Bytes} :
    t.get key = none ↔ ∀ e ∈ t.entries, e.key = key → e.deleted = true := by
  constructor
  · intro h e he hk
    cases hidx : t.get_index key with
    | error i => exact absurd hk (get_index_err_not_mem hwf.1 hidx e he)
    | ok i =>
      simp only [MemTable.get, hidx] at h
      rcases get_index_found hwf.1 he hk with ⟨i2, hidx2, _, hgd⟩
      rw [hidx] at hidx2
      have hii : i2 = i := by injection hidx2.symm
      subst hii
      by_cases hd : (t.entries.getD i2 default).deleted = true
      · rw [← hgd]; exact hd
      · rw [if_neg hd] at h
        cases h
  · intro h
    cases hidx : t.get_index key with
    | error i => simp only [MemTable.get, hidx]
    | ok i =>
      have hok := get_index_ok hwf.1 hidx
      have hmem : t.entries.getD i default ∈ t.entries := by
        rw [List.getD_eq_getElem _ _ hok.1]
        exact List.getElem_mem _
      simp only [MemTable.get, hidx, h (t.entries.getD i default) hmem hok.2]
      simp

/-- `get` after `set` on the written key returns the fresh live entry. -/
theorem get_set_self {t : MemTable} (hwf : t.WF) (k v : Bytes) (ts : Nat) :
    (t.set k v ts).get k = some ⟨k, some v, ts, false⟩ :=
  (get_some_iff (WF_set hwf k v ts)).mpr
    ⟨(mem_set_entries hwf k v ts _).mpr (Or.inl rfl), rfl, rfl⟩

/-- `get` after `set` on a different key is unchanged. -/
theorem get_set_ne {t : MemTable} (hwf : t.WF) {k k' : Bytes} (hne : k' ≠ k)
    (v : Bytes) (ts : Nat) : (t.set k v ts).get k' = t.get k' := by
  cases hget : t.get k' with
  | some e =>
    rcases (get_some_iff hwf).mp hget with ⟨he, hk, hd⟩
    exact (get_some_iff (WF_set hwf k v ts)).mpr
      ⟨(mem_set_entries hwf k v ts e).mpr (Or.inr ⟨he, hk ▸ hne⟩), hk, hd⟩
  | none =>
    apply (get_none_iff (WF_set hwf k v ts)).mpr
    intro e he hk
    rcases (mem_set_entries hwf k v ts e).mp he with rfl | ⟨he2, _⟩
    · exact absurd hk.symm (by simpa using hne)
    · exact (get_none_iff hwf).mp hget e he2 hk

/-- `get` after `delete` on the deleted key misses. -/
theorem get_delete_self {t : MemTable} (hwf : t.WF) (k : Bytes) (ts : Nat) :
    (t.delete k ts).get k = none := by
  apply (get_none_iff (WF_delete hwf k ts)).mpr
  intro e he hk
  rcases (mem_delete_entries hwf k ts e).mp he with rfl | ⟨_, hne⟩
  · rfl
  · exact absurd hk hne

/-- `get` after `delete` on a different key is unchanged. -/
theorem get_delete_ne {t : MemTable} (hwf : t.WF) {k k' : Bytes} (hne : k' ≠ k)
    (ts : Nat) : (t.delete k ts).get k' = t.get k' := by
  cases hget : t.get k' with
  | some e =>
    rcases (get_some_iff hwf).mp hget with ⟨he, hk, hd⟩
    exact (get_some_iff (WF_delete hwf k ts)).mpr
      ⟨(mem_delete_entries hwf k ts e).mpr (Or.inr ⟨he, hk ▸ hne⟩), hk, hd⟩
  | none =>
    apply (get_none_iff (WF_delete hwf k ts)).mpr
    intro e he hk
    rcases (mem_delete_entries hwf k ts e).mp he with rfl | ⟨he2, _⟩
    · exact absurd hk.symm (by simpa using hne)
    · exact (get_none_iff hwf).mp hget e he2 hk

/-- `get` on the empty table misses. -/
theorem get_new (k : Bytes) : MemTable.new.get k = none := rfl

/-- Folding operations distributes over appending one operation. -/
theorem applyOps_append (ops : List Op) (op : Op) :
    applyOps (ops ++ [op]) = applyOp (applyOps ops) op := by
  simp [applyOps, List.foldl_append]

/-- `lastOpFor` after appending one operation. -/
theorem lastOpFor_append (ops : List Op) (op : Op) (k : Bytes) :
    lastOpFor (ops ++ [op]) k = if op.key = k then some op else lastOpFor ops k := by
  simp only [lastOpFor, List.filter_append]
  by_cases h : op.key = k
  · simp [h, List.filter, List.getLast?_append]
  · simp [h, List.filter]

/-- The central last-write-wins fact: after folding a sequence of
operations into the empty MemTable, `get k` misses exactly when no
operation addressed `k` or the last one addressing it was a delete, and
when the last one was `set k v ts` it returns that fresh live entry. -/
theorem get_applyOps (ops : List Op) (k : Bytes) :
    ((applyOps ops).get k = none ↔
      (lastOpFor ops k = none ∨ ∃ ts, lastOpFor ops k = some (Op.del k ts))) ∧
    (∀ v ts, lastOpFor ops k = some (Op.set k v ts) →
      (applyOps ops).get k = some ⟨k, some v, ts, false⟩) := by
  induction ops using List.reverseRecOn with
  | nil =>
    constructor
    · simp [applyOps, lastOpFor, MemTable.new]
      rfl
    · intro v ts h
      simp [lastOpFor] at h
  | append_singleton ops op ih =>
    rw [applyOps_append, lastOpFor_append]
    cases op with
    | set k2 v2 ts2 =>
      by_cases hk : (Op.set k2 v2 ts2).key = k
      · have hk2 : k2 = k := hk
        subst hk2
        rw [if_pos hk]
        constructor
        · rw [applyOp, get_set_self (WF_applyOps ops)]
          constructor
          · intro h; cases h
          · rintro (h | ⟨ts, h⟩)
            · cases h
            · cases h
        · intro v ts h
          injection h with h2
          injection h2 with e1 e2 e3
          subst e2
          subst e3
          rw [applyOp]
          exact get_set_self (WF_applyOps ops) _ _ _
      · have hk2 : k2 ≠ k := hk
        rw [if_neg hk]
        rw [applyOp]
        rw [get_set_ne (WF_applyOps ops) (fun h => hk2 h.symm) v2 ts2]
        exact ih
    | del k2 ts2 =>
      by_cases hk : (Op.del k2 ts2).key = k
      · have hk2 : k2 = k := hk
        subst hk2
        rw [if_pos hk]
        constructor
        · rw [applyOp, get_delete_self (WF_applyOps ops)]
          constructor
          · intro _
            exact Or.inr ⟨ts2, rfl⟩
          · intro _
            rfl
        · intro v ts h
          injection h with h2
          cases h2
      · have hk2 : k2 ≠ k := hk
        rw [if_neg hk]
        rw [applyOp]
        rw [get_delete_ne (WF_applyOps ops) (fun h => hk2 h.symm) ts2]
        exact ih

/-- C4: after any sequence of `set`/`delete` operations applied to a
MemTable created by `MemTable::new`, the entries vector is strictly
ascending under lexicographic byte ordering of keys, with at most one
entry per key (tombstones included). -/
theorem mem_table_sorted_unique (ops : List Op) :
    List.Pairwise (fun a b : MemTableEntry => bytesLt a.key b.key) (applyOps ops).entries ∧
    ((applyOps ops).entries.map MemTableEntry.key).Nodup := by
  have hs := (WF_applyOps ops).1
  rw [tkeys] at hs
  constructor
  · exact (List.pairwise_map).mp hs
  · exact hs.imp fun h => bytesLt_ne h

/-- C5: for every key `k` and operation sequence on an initially empty
MemTable, `get k` misses iff the last operation addressing `k` was a
delete or none addressed it; otherwise it returns the entry written by
the last `set`, and `Database::get` returns a copy of that entry's key,
value and timestamp. -/
theorem mem_table_get_last_write (ops : List Op) (k : Bytes) :
    ((applyOps ops).get k = none ↔
      (lastOpFor ops k = none ∨ ∃ ts, lastOpFor ops k = some (Op.del k ts))) ∧
    (∀ v ts, lastOpFor ops k = some (Op.set k v ts) →
      (applyOps ops).get k = some ⟨k, some v, ts, false⟩ ∧
      Database.get ⟨applyOps ops, []⟩ k = some ⟨k, v, ts⟩) := by
  have h := get_applyOps ops k
  refine ⟨h.1, ?_⟩
  intro v ts hlast
  have hget := h.2 v ts hlast
  refine ⟨hget, ?_⟩
  simp only [Database.get, hget]
  rfl

/-- Witness for C5 at a concrete input. -/
theorem mem_table_get_last_write_witness :
    (applyOps [Op.set [1] [2] 5]).get [1] = some ⟨[1], some [2], 5, false⟩ ∧
    Database.get ⟨applyOps [Op.set [1] [2] 5], []⟩ [1] = some ⟨[1], [2], 5⟩ :=
  (mem_table_get_last_write [Op.set [1] [2] 5] [1]).2 [2] 5 (by decide)

/-- C8 counterexample: the S3 scenario (set Lime to the 13-byte value
Lime Smoothie, then to the 12-byte value A sour fruit, keys and values
given as ASCII bytes) produces size 33 = 4 + 12 + 17, not 37 as claimed
(Lime has 4 bytes, so even the spec's own breakdown 5+12+17 is off). -/
theorem s3_size_counterexample :
    ¬ (((MemTable.new.set [76, 105, 109, 101]
          [76, 105, 109, 101, 32, 83, 109, 111, 111, 116, 104, 105, 101] 0).set
          [76, 105, 109, 101]
          [65, 32, 115, 111, 117, 114, 32, 102, 114, 117, 105, 116] 1).size = 37) := by
  decide

/-- C8 (amended): the S3 scenario (with the timestamps 0 and 10 of one
concrete run) leaves exactly one entry, for key Lime with value
A sour fruit and the second timestamp, and size 33 = 4 + 12 + 17. -/
theorem s3_scenario :
    ((MemTable.new.set [76, 105, 109, 101]
        [76, 105, 109, 101, 32, 83, 109, 111, 111, 116, 104, 105, 101] 0).set
        [76, 105, 109, 101]
        [65, 32, 115, 111, 117, 114, 32, 102, 114, 117, 105, 116] 10) =
      ⟨[⟨[76, 105, 109, 101],
          some [65, 32, 115, 111, 117, 114, 32, 102, 114, 117, 105, 116], 10, false⟩], 33⟩ := by
  decide

/-- C10: setting a key that currently holds a tombstone replaces the
tombstone with the fresh live entry but leaves `size()` exactly
unchanged — the new value's length is not added to the accounting. -/
theorem set_over_tombstone (t : MemTable) (k v : Bytes) (ts : Nat) (e : MemTableEntry)
    (hwf : t.WF) (he : e ∈ t.entries) (hk : e.key = k) (hd : e.deleted = true) :
    (t.set k v ts).size = t.size ∧
    (t.set k v ts).get k = some ⟨k, some v, ts, false⟩ := by
  refine ⟨?_, get_set_self hwf k v ts⟩
  rcases get_index_found hwf.1 he hk with ⟨i, hidx, _, hgd⟩
  have hval : e.value = none := (hwf.2 e he).mp hd
  simp only [MemTable.set, hidx, hgd, hval]

/-- Witness for C10 at a concrete input. -/
theorem set_over_tombstone_witness :
    ((MemTable.new.delete [1] 0).set [1] [7, 8] 5).size = (MemTable.new.delete [1] 0).size ∧
    ((MemTable.new.delete [1] 0).set [1] [7, 8] 5).get [1] =
      some ⟨[1], some [7, 8], 5, false⟩ :=
  set_over_tombstone (MemTable.new.delete [1] 0) [1] [7, 8] 5 ⟨[1], none, 0, true⟩
    ⟨by
      show List.Pairwise bytesLt [[1]]
      simp, by decide⟩ (by decide) rfl rfl

/-- An LE encoding has exactly its width in bytes. -/
theorem length_leBytes (n : Nat) : ∀ w, (leBytes n w).length = w := by
  intro w
  induction w generalizing n with
  | zero => rfl
  | succ w ih => simp [leBytes, ih]

/-- Decoding inverts encoding for values within the width. -/
theorem fromLe_leBytes : ∀ w n, n < 256 ^ w → fromLe (leBytes n w) = n := by
  intro w
  induction w with
  | zero =>
    intro n hn
    simp [Nat.pow_zero] at hn
    simp [hn, leBytes, fromLe]
  | succ w ih =>
    intro n hn
    have hdiv : n / 256 < 256 ^ w := by
      rw [Nat.div_lt_iff_lt_mul (by norm_num : 0 < 256)]
      calc n < 256 ^ (w + 1) := hn
        _ = 256 ^ w * 256 := by rw [Nat.pow_succ]
    simp only [leBytes, fromLe, List.foldr]
    have := ih (n / 256) hdiv
    rw [fromLe] at this
    rw [this]
    exact Nat.mod_add_div n 256

/-- `read_exact` succeeds on a stream starting with the requested number
of bytes: it returns them and the remainder. -/
theorem readExact_of_length {a : List Nat} {n : Nat} (h : a.length = n) (b : List Nat) :
    readExact (a ++ b) n = Except.ok (a, b) := by
  subst h
  rw [readExact, if_pos (by simp)]
  rw [List.take_left, List.drop_left]

/-- `read_exact` of exactly the whole stream. -/
theorem readExact_all {a : List Nat} {n : Nat} (h : a.length = n) :
    readExact a n = Except.ok (a, []) := by
  subst h
  rw [readExact, if_pos (le_refl _)]
  rw [List.take_length, List.drop_length]

/-- C3: for every key, value and timestamp (within the fixed integer
widths), encoding a set record with `WAL::set` and decoding the bytes
with `WALIterator::next` returns the same key, value and timestamp with
`deleted = false` and consumes the whole record; likewise a delete
record decodes to the same key and timestamp with no value and
`deleted = true`. -/
theorem wal_record_roundtrip (k v : Bytes) (ts : Nat)
    (hk : k.length < 2 ^ 64) (hv : v.length < 2 ^ 64) (ht : ts < 2 ^ 128) :
    WALIterator.next (WAL.set k v ts) = (some (Except.ok ⟨k, some v, ts, false⟩), []) ∧
    WALIterator.next (WAL.delete k ts) = (some (Except.ok ⟨k, none, ts, true⟩), []) := by
  have hk2 : k.length < 256 ^ 8 := by
    rw [show (256 : Nat) ^ 8 = 2 ^ 64 by norm_num]
    exact hk
  have hv2 : v.length < 256 ^ 8 := by
    rw [show (256 : Nat) ^ 8 = 2 ^ 64 by norm_num]
    exact hv
  have ht2 : ts < 256 ^ 16 := by
    rw [show (256 : Nat) ^ 16 = 2 ^ 128 by norm_num]
    exact ht
  constructor
  · simp only [WAL.set, WALIterator.next,
      readExact_of_length (length_leBytes k.length 8),
      fromLe_leBytes 8 k.length hk2,
      readExact_of_length (show ([0] : List Nat).length = 1 from rfl),
      readExact_of_length (length_leBytes v.length 8),
      fromLe_leBytes 8 v.length hv2,
      readExact_of_length (rfl : k.length = k.length),
      readExact_of_length (rfl : v.length = v.length),
      readExact_all (length_leBytes ts 16),
      fromLe_leBytes 16 ts ht2,
      List.headD]
    simp
  · simp only [WAL.delete, WALIterator.next,
      readExact_of_length (length_leBytes k.length 8),
      fromLe_leBytes 8 k.length hk2,
      readExact_of_length (show ([1] : List Nat).length = 1 from rfl),
      readExact_of_length (rfl : k.length = k.length),
      readExact_all (length_leBytes ts 16),
      fromLe_leBytes 16 ts ht2,
      List.headD]
    simp


/-- Witness for C3 at a concrete record. -/
theorem wal_record_roundtrip_witness :
    WALIterator.next (WAL.set [1] [2, 3] 7) =
      (some (Except.ok ⟨[1], some [2, 3], 7, false⟩), []) ∧
    WALIterator.next (WAL.delete [1] 7) =
      (some (Except.ok ⟨[1], none, 7, true⟩), []) :=
  wal_record_roundtrip [1] [2, 3] 7 (by norm_num) (by norm_num) (by norm_num)

/-- A stream shorter than one length prefix: the iterator reports clean
end-of-stream when every byte it managed to read is zero (the
`len_buffer == [0; 8]` test), and a corrupt record otherwise. -/
theorem next_of_short {s : List Nat} (h : s.length < 8) :
    WALIterator.next s =
      if s ++ List.replicate (8 - s.length) 0 = List.replicate 8 0 then
        ((none : Option (Except WALError WALEntry)), ([] : List Nat))
      else (some (Except.error WALError.CorruptRecord), []) := by
  have hno : ¬ 8 ≤ s.length := by omega
  simp only [WALIterator.next, readExact, if_neg hno]

/-- A stream holding at least one length prefix always produces an item,
and whenever the item is an error the whole remainder was consumed. -/
theorem next_of_long {s : List Nat} (h : 8 ≤ s.length) :
    (∃ r, (WALIterator.next s).1 = some r) ∧
    (∀ e, (WALIterator.next s).1 = some (Except.error e) → (WALIterator.next s).2 = []) := by
  have h8 : readExact s 8 = Except.ok (s.take 8, s.drop 8) := by
    rw [readExact, if_pos h]
  simp only [WALIterator.next, h8]
  repeat' split
  all_goals refine ⟨⟨_, rfl⟩, ?_⟩
  all_goals intro e he
  all_goals first
    | rfl
    | simp at he

/-- C7 (amended): on a record boundary the iterator returns end-of-stream
exactly when fewer than 8 bytes remain and all of them are zero (in
particular at clean end-of-file); any other outcome is a decoded record
or a corrupt-record error, and after an error the whole remainder has
been consumed, so no further record is yielded. -/
theorem wal_iterator_next_contract (s : List Nat) :
    ((WALIterator.next s).1 = none ↔ s.length < 8 ∧ ∀ b ∈ s, b = 0) ∧
    (∀ e, (WALIterator.next s).1 = some (Except.error e) →
      (WALIterator.next s).2 = [] ∧
      (WALIterator.next ((WALIterator.next s).2)).1 = none) := by
  rcases Nat.lt_or_ge s.length 8 with hlen | hlen
  · rw [next_of_short hlen]
    by_cases hz : s ++ List.replicate (8 - s.length) 0 = List.replicate 8 0
    · rw [if_pos hz]
      refine ⟨⟨fun _ => ⟨hlen, ?_⟩, fun _ => rfl⟩, ?_⟩
      · intro b hb
        exact List.eq_of_mem_replicate (hz ▸ List.mem_append_left _ hb)
      · intro e he
        cases he
    · rw [if_neg hz]
      constructor
      · constructor
        · intro h
          cases h
        · rintro ⟨h1, h2⟩
          exfalso
          apply hz
          have hs : s = List.replicate s.length 0 := List.eq_replicate_iff.mpr ⟨rfl, h2⟩
          calc s ++ List.replicate (8 - s.length) 0
              = List.replicate s.length 0 ++ List.replicate (8 - s.length) 0 := by rw [← hs]
            _ = List.replicate (s.length + (8 - s.length)) 0 := (List.replicate_add _ _ _).symm
            _ = List.replicate 8 0 := by congr 1; omega
      · intro e he
        exact ⟨rfl, rfl⟩
  · have hl := next_of_long hlen
    constructor
    · constructor
      · intro h
        rcases hl.1 with ⟨r, hr⟩
        rw [h] at hr
        cases hr
      · rintro ⟨h1, _⟩
        omega
    · intro e he
      refine ⟨hl.2 e he, ?_⟩
      rw [hl.2 e he]
      rfl

/-- C7 counterexample: on the one-byte stream containing a single zero,
bytes remain (a short read inside a record's length prefix), yet the
iterator reports clean end-of-stream instead of the claimed
corrupt-record condition. -/
theorem next_short_zero_counterexample :
    ¬ ((WALIterator.next [0]).1 = none → ([0] : List Nat) = []) := by
  decide

/-- Witness for C7 at a concrete truncated record. -/
theorem wal_iterator_next_contract_witness :
    (WALIterator.next [5, 0, 0, 0, 0, 0, 0, 0]).2 = [] ∧
    (WALIterator.next ((WALIterator.next [5, 0, 0, 0, 0, 0, 0, 0]).2)).1 = none :=
  (wal_iterator_next_contract [5, 0, 0, 0, 0, 0, 0, 0]).2 WALError.CorruptRecord (by decide)

/-- C2: `Database::set` first appends a set record to the live WAL and
flushes it; if either step fails the operation returns `Err(0)` and the
MemTable is left unchanged; only when both succeed does it return
`Ok(1)`, with the record bytes appended and the MemTable updated with
the same key, value and timestamp.  Likewise for `Database::delete`. -/
theorem database_mutation_pipeline (db : Database) (k v : Bytes) (ts : Nat)
    (walOk flushOk : Bool) :
    (¬ (walOk = true ∧ flushOk = true) →
      (Database.set db k v ts walOk flushOk).1 = Except.error 0 ∧
      (Database.set db k v ts walOk flushOk).2.memTable = db.memTable) ∧
    (walOk = true → flushOk = true →
      (Database.set db k v ts walOk flushOk).1 = Except.ok 1 ∧
      (Database.set db k v ts walOk flushOk).2 =
        ⟨db.memTable.set k v ts, db.wal ++ WAL.set k v ts⟩) ∧
    (¬ (walOk = true ∧ flushOk = true) →
      (Database.delete db k ts walOk flushOk).1 = Except.error 0 ∧
      (Database.delete db k ts walOk flushOk).2.memTable = db.memTable) ∧
    (walOk = true → flushOk = true →
      (Database.delete db k ts walOk flushOk).1 = Except.ok 1 ∧
      (Database.delete db k ts walOk flushOk).2 =
        ⟨db.memTable.delete k ts, db.wal ++ WAL.delete k ts⟩) := by
  cases walOk <;> cases flushOk <;> simp [Database.set, Database.delete]

/-- Witness for C2 at concrete inputs: a failing flush leaves the
MemTable untouched, a successful pipeline applies the delete. -/
theorem database_mutation_pipeline_witness :
    ((Database.set ⟨MemTable.new, []⟩ [1] [2] 3 false true).1 = Except.error 0 ∧
     (Database.set ⟨MemTable.new, []⟩ [1] [2] 3 false true).2.memTable = MemTable.new) ∧
    ((Database.delete ⟨MemTable.new, []⟩ [1] 3 true true).1 = Except.ok 1 ∧
     (Database.delete ⟨MemTable.new, []⟩ [1] 3 true true).2 =
       ⟨MemTable.new.delete [1] 3, [] ++ WAL.delete [1] 3⟩) := by
  constructor
  · exact (database_mutation_pipeline ⟨MemTable.new, []⟩ [1] [2] 3 false true).1 (by simp)
  · exact (database_mutation_pipeline ⟨MemTable.new, []⟩ [1] [2] 3 true true).2.2.2 rfl rfl

/-- Replaying a record is applying its operation. -/
theorem applyWALEntry_toOp (t : MemTable) (e : WALEntry) :
    applyWALEntry t e = applyOp t e.toOp := by
  rw [applyWALEntry, WALEntry.toOp]
  by_cases hd : e.deleted = true
  · simp [hd, applyOp]
  · simp [hd, applyOp]

/-- A record's operation addresses the record's key. -/
theorem toOp_key (e : WALEntry) : e.toOp.key = e.key := by
  rw [WALEntry.toOp]
  by_cases hd : e.deleted = true
  · simp [hd, Op.key]
  · simp [hd, Op.key]

/-- The nested recovery fold equals the fold over the flattened records. -/
theorem foldl_segments_eq_bind (fs : List DirFile) (t : MemTable) :
    fs.foldl (fun t2 f => (segEntries f.data).foldl applyWALEntry t2) t =
      (fs.flatMap fun f => segEntries f.data).foldl applyWALEntry t := by
  induction fs generalizing t with
  | nil => rfl
  | cons f fs ih =>
    simp only [List.foldl_cons, List.flatMap_cons, List.foldl_append]
    exact ih _

/-- Folding records is folding their operations. -/
theorem foldl_applyWALEntry_map (recs : List WALEntry) (t : MemTable) :
    recs.foldl applyWALEntry t = (recs.map WALEntry.toOp).foldl applyOp t := by
  induction recs generalizing t with
  | nil => rfl
  | cons e recs ih =>
    simp only [List.foldl_cons, List.map_cons, applyWALEntry_toOp]
    exact ih _

/-- `lastOpFor` over mapped records is the mapped `lastRecordFor`. -/
theorem lastOpFor_map_toOp (recs : List WALEntry) (k : Bytes) :
    lastOpFor (recs.map WALEntry.toOp) k = (lastRecordFor recs k).map WALEntry.toOp := by
  rw [lastOpFor, lastRecordFor]
  have hf : (recs.map WALEntry.toOp).filter (fun op => decide (op.key = k)) =
      (recs.filter fun e => decide (e.key = k)).map WALEntry.toOp := by
    induction recs with
    | nil => rfl
    | cons e recs ih =>
      simp only [List.map_cons, List.filter_cons, toOp_key, ih]
      by_cases hk : e.key = k
      · simp [hk]
      · simp [hk]
  rw [hf, List.getLast?_map]

/-- C1: recovery builds exactly the replay MemTable: for any directory
whose scan succeeds with segment list `wals`, `WAL::load_from_dir`
returns the MemTable obtained by replaying all records of all segments
(segments in ascending filename order, records in file order) into an
empty MemTable; and for every key, that MemTable holds the effect of the
last physically applied record for the key. -/
theorem load_from_dir_replay (dir : List DirFile) (wals : List DirFile)
    (h : files_with_ext dir walExt = some wals) :
    WAL.load_from_dir dir = some (replaySpec wals) ∧
    (∀ k,
      (lastRecordFor (allRecords wals) k = none → (replaySpec wals).get k = none) ∧
      (∀ e, lastRecordFor (allRecords wals) k = some e →
        e.key = k ∧
        (e.deleted = true → (replaySpec wals).get k = none) ∧
        (e.deleted = false →
          (replaySpec wals).get k =
            some ⟨k, some (e.value.getD []), e.timestamp, false⟩))) := by
  have hmain : ∀ k, (replaySpec wals).get k =
      (applyOps ((allRecords wals).map WALEntry.toOp)).get k := by
    intro k
    rw [replaySpec, foldl_applyWALEntry_map, applyOps]
  constructor
  · rw [WAL.load_from_dir, h, Option.map_some']
    rw [foldl_segments_eq_bind]
    rfl
  · intro k
    have hlast := get_applyOps ((allRecords wals).map WALEntry.toOp) k
    rw [lastOpFor_map_toOp] at hlast
    constructor
    · intro hnone
      rw [hmain k]
      exact hlast.1.mpr (Or.inl (by rw [hnone]; rfl))
    · intro e he
      have hkey : e.key = k := by
        have hmem : e ∈ (allRecords wals).filter fun e2 => decide (e2.key = k) := by
          rw [lastRecordFor] at he
          exact List.mem_of_getLast?_eq_some he
        have := List.of_mem_filter hmem
        simpa using this
      refine ⟨hkey, ?_, ?_⟩
      · intro hd
        rw [hmain k]
        apply hlast.1.mpr
        refine Or.inr ⟨e.timestamp, ?_⟩
        rw [he]
        simp only [Option.map_some']
        rw [WALEntry.toOp, if_pos hd, hkey]
      · intro hd
        rw [hmain k]
        apply hlast.2 (e.value.getD []) e.timestamp
        rw [he]
        simp only [Option.map_some']
        rw [WALEntry.toOp, if_neg (by rw [hd]; exact Bool.false_ne_true), hkey]

/-- Witness for C1: a directory holding one segment with one encoded set
record recovers to the replayed MemTable. -/
theorem load_from_dir_replay_witness :
    WAL.load_from_dir [⟨[49], some walExt, WAL.set [1] [2] 3⟩] =
      some (replaySpec [⟨[49], some walExt, WAL.set [1] [2] 3⟩]) :=
  (load_from_dir_replay [⟨[49], some walExt, WAL.set [1] [2] 3⟩]
    [⟨[49], some walExt, WAL.set [1] [2] 3⟩] (by decide)).1

/-- `intSizes` on a cons. -/
theorem intSizes_cons (a : Nat) (l : List Nat) :
    intSizes (a :: l) = (a : Int) :: intSizes l := rfl

/-- The `usize` modulus as a numeral, for the arithmetic below. -/
theorem U64_eq : U64 = 18446744073709551616 := by norm_num [U64]

/-- `find?` returns the element at an index at which the predicate first
holds. -/
theorem find?_eq_of_first {α : Type} {p : α → Bool} :
    ∀ {l : List α} {i : Nat} (h : i < l.length), p l[i] = true →
      (∀ j, ∀ hj : j < l.length, j < i → p l[j] = false) →
      l.find? p = some l[i] := by
  intro l
  induction l with
  | nil => intro i h; simp at h
  | cons a l ih =>
    intro i h hp hfirst
    cases i with
    | zero =>
      rw [List.find?_cons_of_pos _ (by simpa using hp)]
      simp
    | succ i =>
      have h0 : p a = false := by
        have := hfirst 0 (by simp) (by omega)
        simpa using this
      rw [List.find?_cons_of_neg _ (by simp [h0])]
      have := ih (by simpa using h) (by simpa using hp)
        (fun j hj hji => by
          have := hfirst (j + 1) (by simpa using hj) (by omega)
          simpa using this)
      simpa using this

/-- On a well-formed table, a found index describes `lookupEntry`. -/
theorem lookupEntry_of_ok {t : MemTable} (hwf : t.WF) {k : Bytes} {i : Nat}
    (hidx : t.get_index k = Except.ok i) :
    lookupEntry t k = some (t.entries.getD i default) := by
  have hok := get_index_ok hwf.1 hidx
  rw [lookupEntry]
  have hgd : t.entries.getD i default = t.entries[i] := List.getD_eq_getElem _ _ hok.1
  rw [hgd]
  apply find?_eq_of_first hok.1
  · rw [← hgd, hok.2]
    simp
  · intro j hj hji
    have hlt := sorted_keys_lt hwf.1 hji hok.1
    rw [hok.2, List.getD_eq_getElem _ _ hj] at hlt
    have : t.entries[j].key ≠ k := bytesLt_ne hlt
    simpa using this

/-- On a well-formed table, a failed search means no stored entry. -/
theorem lookupEntry_of_err {t : MemTable} (hwf : t.WF) {k : Bytes} {i : Nat}
    (hidx : t.get_index k = Except.error i) :
    lookupEntry t k = none := by
  rw [lookupEntry, List.find?_eq_none]
  intro e he
  have := get_index_err_not_mem hwf.1 hidx e he
  simpa using this

/-- One step of the size accounting: on a well-formed in-range table,
applying one operation moves the size by exactly the amended delta. -/
theorem size_applyOp_amended {t : MemTable} (hwf : t.WF) (op : Op)
    (hlt : t.size < U64)
    (hge : 0 ≤ (t.size : Int) + amendedDelta t op)
    (hlt2 : (t.size : Int) + amendedDelta t op < (U64 : Int)) :
    ((applyOp t op).size : Int) = (t.size : Int) + amendedDelta t op := by
  rw [U64_eq] at hlt hlt2
  cases op with
  | set k v ts =>
    cases hidx : t.get_index k with
    | error i =>
      have hl : lookupEntry t k = none := lookupEntry_of_err hwf hidx
      have hd2 : amendedDelta t (Op.set k v ts) =
          (k.length : Int) + v.length + 16 + 1 := by
        simp only [amendedDelta, hl]
      rw [hd2] at hge hlt2 ⊢
      simp only [applyOp, MemTable.set, hidx, wadd, U64_eq]
      omega
    | ok i =>
      have hl : lookupEntry t k = some (t.entries.getD i default) :=
        lookupEntry_of_ok hwf hidx
      cases hval : (t.entries.getD i default).value with
      | none =>
        have hd2 : amendedDelta t (Op.set k v ts) = 0 := by
          simp only [amendedDelta, hl, hval]
        rw [hd2] at hge hlt2 ⊢
        simp only [applyOp, MemTable.set, hidx, hval]
        omega
      | some ov =>
        have hd2 : amendedDelta t (Op.set k v ts) =
            (v.length : Int) - (ov.length : Int) := by
          simp only [amendedDelta, hl, hval]
        rw [hd2] at hge hlt2 ⊢
        simp only [applyOp, MemTable.set, hidx, hval]
        by_cases hvv : v.length < ov.length
        · simp only [if_pos hvv, wsub, U64_eq]
          have htest : (((t.size + (18446744073709551616 -
                (List.length ov - List.length v) % 18446744073709551616)) %
                18446744073709551616 : Nat) : Int) =
              (t.size : Int) + ((List.length v : Int) - (List.length ov : Int)) := by
            omega
          exact htest
        · simp only [if_neg hvv, wadd, U64_eq]
          have htest : (((t.size + (List.length v - List.length ov)) %
                18446744073709551616 : Nat) : Int) =
              (t.size : Int) + ((List.length v : Int) - (List.length ov : Int)) := by
            omega
          exact htest
  | del k ts =>
    cases hidx : t.get_index k with
    | error i =>
      have hl : lookupEntry t k = none := lookupEntry_of_err hwf hidx
      have hd2 : amendedDelta t (Op.del k ts) = (k.length : Int) + 16 + 1 := by
        simp only [amendedDelta, hl]
      rw [hd2] at hge hlt2 ⊢
      simp only [applyOp, MemTable.delete, hidx, wadd, U64_eq]
      omega
    | ok i =>
      have hl : lookupEntry t k = some (t.entries.getD i default) :=
        lookupEntry_of_ok hwf hidx
      cases hval : (t.entries.getD i default).value with
      | none =>
        have hd2 : amendedDelta t (Op.del k ts) = 0 := by
          simp only [amendedDelta, hl, hval]
        rw [hd2] at hge hlt2 ⊢
        simp only [applyOp, MemTable.delete, hidx, hval]
        omega
      | some ov =>
        have hd2 : amendedDelta t (Op.del k ts) = - ((ov.length : Int)) := by
          simp only [amendedDelta, hl, hval]
        rw [hd2] at hge hlt2 ⊢
        simp only [applyOp, MemTable.delete, hidx, hval, wsub, U64_eq]
        have htest : (((t.size + (18446744073709551616 -
              List.length ov % 18446744073709551616)) %
              18446744073709551616 : Nat) : Int) =
            (t.size : Int) + (-(List.length ov : Int)) := by
          omega
        exact htest

/-- The code's size equals the amended running sum at every prefix, as
long as the sums stay inside the `usize` range. -/
theorem codeSizes_eq_amendedSizes :
    ∀ (ops : List Op) (t : MemTable) (s : Int), t.WF → (t.size : Int) = s →
      t.size < U64 →
      (∀ x ∈ amendedSizes t s ops, 0 ≤ x ∧ x < (U64 : Int)) →
      intSizes (codeSizes t ops) = amendedSizes t s ops := by
  intro ops
  induction ops with
  | nil => intro t s _ _ _ _; rfl
  | cons op ops ih =>
    intro t s hwf hs hlt hrange
    subst hs
    obtain ⟨hge2, hlt2⟩ :=
      hrange ((t.size : Int) + amendedDelta t op) (by simp [amendedSizes])
    have hstep : ((applyOp t op).size : Int) = (t.size : Int) + amendedDelta t op :=
      size_applyOp_amended hwf op hlt hge2 hlt2
    have hltn : (applyOp t op).size < U64 := by
      rw [U64_eq]
      rw [U64_eq] at hlt2
      omega
    simp only [codeSizes, amendedSizes, intSizes_cons]
    rw [hstep]
    congr 1
    exact ih (applyOp t op) _ (WF_applyOp hwf op) hstep hltn
      (fun x hx => hrange x (by
        simp only [amendedSizes, List.mem_cons]
        exact Or.inr hx))

/-- C6 counterexample: delete an absent one-byte key, then resurrect it
with a two-byte value.  The code's running sizes are 18, 18; the spec's
rules give 18, 20 (they add the new value's length when the overwritten
entry is a tombstone, while the code adds nothing there). -/
theorem size_accounting_counterexample :
    intSizes (codeSizes MemTable.new [Op.del [97] 0, Op.set [97] [120, 121] 1]) ≠
      specSizes MemTable.new 0 [Op.del [97] 0, Op.set [97] [120, 121] 1] := by
  decide

/-- C6 (amended): for every operation sequence whose amended running sums
stay within the `usize` range, `size()` equals the amended running sum at
every prefix: a fresh live insertion adds `len(key)+len(value)+16+1`, a
fresh tombstone insertion adds `len(key)+16+1`, overwriting a live entry
with a live value adds `len(new_value) − len(old_value)`, overwriting a
live entry with a tombstone subtracts `len(old_value)`, and overwriting a
tombstone (by `set` or by `delete`) leaves the size unchanged. -/
theorem mem_table_size_accounting (ops : List Op)
    (h : ∀ x ∈ amendedSizes MemTable.new 0 ops, 0 ≤ x ∧ x < (U64 : Int)) :
    intSizes (codeSizes MemTable.new ops) = amendedSizes MemTable.new 0 ops :=
  codeSizes_eq_amendedSizes ops MemTable.new 0 WF_new rfl
    (by norm_num [MemTable.new, U64]) h

/-- Witness for C6 at a concrete sequence (a fresh insert followed by a
shrinking overwrite). -/
theorem mem_table_size_accounting_witness :
    intSizes (codeSizes MemTable.new [Op.set [1] [2, 3] 0, Op.set [1] [4] 1]) =
      amendedSizes MemTable.new 0 [Op.set [1] [2, 3] 0, Op.set [1] [4] 1] :=
  mem_table_size_accounting [Op.set [1] [2, 3] 0, Op.set [1] [4] 1] (by decide)

/-- C9 (code bug): a directory entry without an extension (such as a
file named README) makes `files_with_ext` panic — the source calls
`path.extension().unwrap()` on it — so `WAL::load_from_dir` (and hence
`Database::new`) aborts instead of ignoring the file.  A file that does
carry a non-wal extension (here a.txt) is ignored as the spec says. -/
theorem load_from_dir_panics_on_extensionless :
    files_with_ext [⟨[82, 69, 65, 68, 77, 69], none, []⟩] walExt = none ∧
    WAL.load_from_dir [⟨[82, 69, 65, 68, 77, 69], none, []⟩] = none ∧
    WAL.load_from_dir [⟨[97, 46, 116, 120, 116], some [116, 120, 116], [1, 2, 3]⟩] =
      some MemTable.new := by
  decide

